import Mathlib

/-!
Verification of `scripts/build_docs_index.py`: a frontmatter parser
(`parse_frontmatter`), a title inferrer (`infer_title_from_markdown`) and an
index builder (`build_index`) over a model of the file-system tree.

Strings are modelled by Lean `String` (a list of unicode code points, matching
Python `str`); the file system is modelled by the `FsNode` tree.  Fallible
operations (reading a directory as text) return `Except`, mirroring uncaught
Python exceptions.
-/

/-- Python line-break characters recognised by `str.splitlines`:
LF, CR (with CRLF counted as a single break), VT, FF, FS, GS, RS, NEL,
LINE SEPARATOR and PARAGRAPH SEPARATOR. -/
def isLineBreakCh (c : Char) : Bool :=
  [10, 11, 12, 13, 28, 29, 30, 133, 0x2028, 0x2029].contains c.toNat

/-- Python whitespace characters, as recognised by `str.strip()` /
`str.isspace` (Unicode separators plus the bidirectional WS/B/S controls). -/
def pyIsSpaceCh (c : Char) : Bool :=
  [32, 9, 10, 11, 12, 13, 28, 29, 30, 31, 133, 160, 0x1680, 0x2028, 0x2029,
    0x202f, 0x205f, 0x3000].contains c.toNat ||
  (0x2000 ≤ c.toNat && c.toNat ≤ 0x200a)

/-- Worker for `str.splitlines`: `acc` holds the (reversed) characters of the
line being scanned; each line break terminates a line, `\r\n` counting as a
single break, and a final unterminated segment forms a line only if nonempty. -/
def splitlinesAux : List Char → List Char → List (List Char)
  | [], acc => if acc.isEmpty then [] else [acc.reverse]
  | '\r' :: '\n' :: rest, acc => acc.reverse :: splitlinesAux rest []
  | c :: rest, acc =>
    if isLineBreakCh c then acc.reverse :: splitlinesAux rest []
    else splitlinesAux rest (c :: acc)

/-- Python `text.splitlines()`. -/
def pySplitlines (s : String) : List String :=
  (splitlinesAux s.data []).map String.mk

/-- Python `s.strip()`: drop leading and trailing whitespace characters. -/
def pyStrip (s : String) : String :=
  String.mk ((s.data.dropWhile pyIsSpaceCh).reverse.dropWhile pyIsSpaceCh).reverse

/-- Python `s.strip('"')`: drop every leading and every trailing double-quote
character (each end handled independently). -/
def pyStripQuotes (s : String) : String :=
  String.mk ((s.data.dropWhile (· == '"')).reverse.dropWhile (· == '"')).reverse

/-- Character-list version of Python `startswith`. -/
def leadsWith : List Char → List Char → Bool
  | [], _ => true
  | _ :: _, [] => false
  | p :: ps, c :: cs => p == c && leadsWith ps cs

/-- Code-point lexicographic comparison of character lists, the order Python
uses when comparing the `str` forms of sibling paths. -/
def charsLe : List Char → List Char → Bool
  | [], _ => true
  | _ :: _, [] => false
  | a :: as, b :: bs =>
    if a.toNat < b.toNat then true
    else if b.toNat < a.toNat then false
    else charsLe as bs

/-- Python `"\n".join(lines)`. -/
def joinWithNL : List String → String
  | [] => ""
  | [l] => l
  | l :: rest => l ++ "\n" ++ joinWithNL rest

/-- Python `line.split(":", 1)` when a colon is present: the characters before
the first colon and the characters after it; `none` when the line has no
colon (the `":" not in line` test). -/
def splitAtColon : List Char → Option (List Char × List Char)
  | [] => none
  | ':' :: rest => some ([], rest)
  | c :: rest => (splitAtColon rest).map (fun p => (c :: p.1, p.2))

/-- Processing of one header line: `none` for a line without a colon,
otherwise the trimmed key and the trimmed, quote-stripped value. -/
def lineKV (l : String) : Option (String × String) :=
  (splitAtColon l.data).map
    (fun p => (pyStrip (String.mk p.1), pyStripQuotes (pyStrip (String.mk p.2))))

/-- Python dict assignment `d[k] = v`: overwrite in place if the key is
present, else append; insertion order is preserved. -/
def dictInsert (d : List (String × String)) (k v : String) : List (String × String) :=
  if d.any (fun p => p.1 == k) then
    d.map (fun p => if p.1 = k then (p.1, v) else p)
  else d ++ [(k, v)]

/-- Python dict lookup (the unique binding of a key, if any). -/
def dictGet : List (String × String) → String → Option String
  | [], _ => none
  | p :: rest, k => if p.1 = k then some p.2 else dictGet rest k

/-- One iteration of the `for line in frontmatter_lines` loop: skip a line
without a colon, otherwise assign the processed key/value pair. -/
def fmStep (d : List (String × String)) (l : String) : List (String × String) :=
  match lineKV l with
  | none => d
  | some kv => dictInsert d kv.1 kv.2

/-- The frontmatter dict built from the header lines, mirroring the
`for line in frontmatter_lines` loop of `parse_frontmatter`. -/
def mkFrontmatter (ls : List String) : List (String × String) :=
  ls.foldl fmStep []

/-- Scan for the closing delimiter, mirroring
`for i in range(1, len(lines)): if lines[i].strip() == "---"`.
The argument list is `lines[1:]` and `i` starts at 1. -/
def findCloseAux : List String → Nat → Option Nat
  | [], _ => none
  | l :: rest, i => if pyStrip l = "---" then some i else findCloseAux rest (i + 1)

/-- Python `parse_frontmatter(text)`: the frontmatter mapping and the body. -/
def parse_frontmatter (text : String) : List (String × String) × String :=
  if leadsWith ['-', '-', '-'] text.data then
    let lines := pySplitlines text
    match findCloseAux (lines.drop 1) 1 with
    | none => ([], text)
    | some e =>
      (mkFrontmatter ((lines.drop 1).take (e - 1)), joinWithNL (lines.drop (e + 1)))
  else ([], text)

/-- Python `pathlib.PurePath.stem`: the final component without its suffix;
the suffix is the part from the last dot on, only when that dot is neither
the first nor past the last character. -/
def pyStem (n : String) : String :=
  match n.data.reverse.findIdx? (fun c => c == '.') with
  | none => n
  | some r =>
    let i := n.data.length - 1 - r
    if 0 < i ∧ i < n.data.length - 1 then String.mk (n.data.take i) else n

/-- Python `s.replace("-", " ")` for the single-character pattern. -/
def dashToSpace (s : String) : String :=
  String.mk (s.data.map (fun c => if c = '-' then ' ' else c))

/-- Worker for Python `str.title()`: every character is lowercased when the
previous character was cased and titlecased otherwise, and the flag is
whether the current character is cased.  CPython consults the full Unicode
case tables here; this embedding carries the ASCII tables only (cased =
`a`-`z`, `A`-`Z`; mappings `toLower`/`toUpper`; all other ASCII characters
uncased and fixed by both mappings), on which it agrees with CPython
character for character.  Statements about the fallback title therefore
carry an `isAsciiCh` hypothesis on the file name. -/
def pyTitleAux : List Char → Bool → List Char
  | [], _ => []
  | c :: rest, prevCased =>
    if c.isAlpha then
      (if prevCased then c.toLower else c.toUpper) :: pyTitleAux rest true
    else c :: pyTitleAux rest false

/-- Python `s.title()`, exact on ASCII strings (see `pyTitleAux`). -/
def pyTitle (s : String) : String :=
  String.mk (pyTitleAux s.data false)

/-- Fallback title: `path.stem.replace("-", " ").title()`, exact for ASCII
file names (the stem is a prefix of the name, `replace` maps `-`, an ASCII
character, to the ASCII space, and `pyTitle` is exact on ASCII). -/
def titleFallback (fname : String) : String :=
  pyTitle (dashToSpace (pyStem fname))

/-- Python `s.replace(old, new, 1)` for a nonempty pattern: replace the
leftmost occurrence only. -/
def replaceOnce (pat rep : List Char) : List Char → List Char
  | [] => []
  | c :: rest =>
    if leadsWith pat (c :: rest) then rep ++ (c :: rest).drop pat.length
    else c :: replaceOnce pat rep rest

/-- The heading scan of `infer_title_from_markdown`: the first line that,
once stripped, starts with `"# "`, returned with that occurrence removed
and stripped. -/
def findHeadingLine : List String → Option String
  | [] => none
  | l :: rest =>
    let t := pyStrip l
    if leadsWith ['#', ' '] t.data then
      some (pyStrip (String.mk (replaceOnce ['#', ' '] [] t.data)))
    else findHeadingLine rest

/-- A file-system tree: a regular file with text content, or a directory
with a named list of children (the list order models scandir order). -/
inductive FsNode where
  | file (content : String)
  | dir (entries : List (String × FsNode))

/-- Name lookup among the children of a directory. -/
def lookupNode (k : String) : List (String × FsNode) → Option FsNode
  | [] => none
  | p :: rest => if p.1 = k then some p.2 else lookupNode k rest

/-- Python `path.read_text()`: the content for a regular file; reading a
directory raises `IsADirectoryError`. -/
def readText : FsNode → Except String String
  | .file c => .ok c
  | .dir _ => .error "IsADirectoryError"

/-- Python `infer_title_from_markdown(path)`.  The first argument is the
node found at the path (`none` when the file does not exist, which is the
`FileNotFoundError` case), the second is the final path component. -/
def infer_title_from_markdown (node : Option FsNode) (fname : String) : Except String String :=
  match node with
  | none => .ok (titleFallback fname)
  | some (.dir _) => .error "IsADirectoryError"
  | some (.file c) =>
    match findHeadingLine (pySplitlines c) with
    | some t => .ok t
    | none => .ok (titleFallback fname)

/-- Code-point lexicographic order on strings, as a relation for sorting. -/
def strLe (a b : String) : Prop := charsLe a.data b.data = true

instance : DecidableRel strLe := fun a b => by unfold strLe; infer_instance

/-- Order on directory entries by name, used for `sorted(root.iterdir())`. -/
def keyLe (a b : String × FsNode) : Prop := charsLe a.1.data b.1.data = true

instance : DecidableRel keyLe := fun a b => by unfold keyLe; infer_instance

/-- Python `fnmatch` test for the pattern `*.md`. -/
def endsWithMd (n : String) : Bool := leadsWith ['d', 'm', '.'] n.data.reverse

/-- Python `sorted(references_dir.glob("*.md"))`: the names of the children
matching `*.md`, sorted; globbing a non-directory yields nothing. -/
def globMd : FsNode → List String
  | .file _ => []
  | .dir es => List.insertionSort strLe ((es.map Prod.fst).filter endsWithMd)

/-- One entry of a record's `references` array. -/
structure RefEntry where
  title : String
  file : String
deriving DecidableEq, Repr

/-- One element of the index built by `build_index`. -/
structure SkillRecord where
  name : String
  folder : String
  description : String
  references : List RefEntry
deriving DecidableEq, Repr

/-- Build one reference entry: infer the title from the globbed child and
record `references/<filename>`. -/
def mkRefEntry (es : List (String × FsNode)) (rname : String) : Except String RefEntry := do
  let t ← infer_title_from_markdown (lookupNode rname es) rname
  pure { title := t, file := "references/" ++ rname }

/-- Collect the reference entries of a `references` node. -/
def buildRefEntries : FsNode → Except String (List RefEntry)
  | .file _ => .ok []
  | .dir es => (globMd (.dir es)).mapM (mkRefEntry es)

/-- The reserved directory names skipped by `build_index`. -/
def reservedNames : List String := ["docs", "scripts", "template", ".git", "__pycache__"]

/-- The `references` block of `build_index`: an empty list when the
`references` child does not exist, otherwise the collected entries. -/
def refsOf (es : List (String × FsNode)) : Except String (List RefEntry) :=
  match lookupNode "references" es with
  | none => .ok []
  | some rn => buildRefEntries rn

/-- Processing of one candidate skill directory, from the `SKILL.md`
existence test to the assembled record (`none` when `SKILL.md` is absent). -/
def processDir (nm : String) (es : List (String × FsNode)) : Except String (Option SkillRecord) :=
  match lookupNode "SKILL.md" es with
  | none => .ok none
  | some sk => do
    let text ← readText sk
    let fm := (parse_frontmatter text).1
    let nameVal := match dictGet fm "name" with | some v => v | none => nm
    let descVal := pyStrip (match dictGet fm "description" with | some v => v | none => "")
    let refs ← refsOf es
    pure (some { name := nameVal, folder := nm, description := descVal, references := refs })

/-- The loop of `build_index` over the sorted root entries: files are
skipped, reserved names are skipped, every other directory goes through
`processDir`. -/
def buildIndexGo : List (String × FsNode) → Except String (List SkillRecord)
  | [] => .ok []
  | (nm, nd) :: rest =>
    match nd with
    | .file _ => buildIndexGo rest
    | .dir es =>
      if nm ∈ reservedNames then buildIndexGo rest
      else do
        let r ← processDir nm es
        let tail ← buildIndexGo rest
        pure (match r with | none => tail | some r₀ => r₀ :: tail)

/-- Python `build_index(root)` where `root` is given by its entry list. -/
def build_index (root : List (String × FsNode)) : Except String (List SkillRecord) :=
  buildIndexGo (List.insertionSort keyLe root)

mutual
/-- Structural equality of trees up to reordering of directory entries:
two snapshots of the same file system, listed in possibly different scandir
orders.  A directory matches when the entry counts agree and every child of
the first occurs, equivalent, under the same name in the second. -/
def nodeEquiv : FsNode → FsNode → Bool
  | .file c₁, .file c₂ => c₁ == c₂
  | .dir e₁, .dir e₂ => (e₁.length == e₂.length) && subEntriesEquiv e₁ e₂
  | _, _ => false
def subEntriesEquiv : List (String × FsNode) → List (String × FsNode) → Bool
  | [], _ => true
  | (k, v) :: rest, e₂ =>
    (match lookupNode k e₂ with
     | some v₂ => nodeEquiv v v₂
     | none => false) && subEntriesEquiv rest e₂
end

mutual
/-- Well-formedness of a tree: inside every directory the names are
pairwise distinct, as in a real file system. -/
def wfNode : FsNode → Bool
  | .file _ => true
  | .dir es => wfEntries es
def wfEntries : List (String × FsNode) → Bool
  | [] => true
  | (k, v) :: rest => rest.all (fun p => p.1 != k) && wfNode v && wfEntries rest
end

/-! ### Order lemmas for the lexicographic comparison -/

theorem charsLe_total : ∀ a b : List Char, charsLe a b = true ∨ charsLe b a = true := by
  intro a
  induction a with
  | nil => intro b; left; rfl
  | cons c as ih =>
    intro b
    cases b with
    | nil => right; rfl
    | cons d bs =>
      by_cases h₁ : c.toNat < d.toNat
      · left; simp [charsLe, h₁]
      · by_cases h₂ : d.toNat < c.toNat
        · right; simp [charsLe, h₂]
        · rcases ih bs with h | h
          · left; simp [charsLe, h₁, h₂, h]
          · right; simp [charsLe, h₁, h₂, h]

theorem charsLe_trans :
    ∀ a b c : List Char, charsLe a b = true → charsLe b c = true → charsLe a c = true := by
  intro a
  induction a with
  | nil => intro b c _ _; rfl
  | cons x as ih =>
    intro b c hab hbc
    cases b with
    | nil => simp [charsLe] at hab
    | cons y bs =>
      cases c with
      | nil => simp [charsLe] at hbc
      | cons z cs =>
        simp only [charsLe] at hab hbc ⊢
        by_cases hxy : x.toNat < y.toNat
        · by_cases hxz : x.toNat < z.toNat
          · simp [hxz]
          · by_cases hzy : z.toNat < y.toNat
            · rw [if_neg (by omega), if_pos hzy] at hbc; exact absurd hbc (by simp)
            · omega
        · by_cases hyx : y.toNat < x.toNat
          · rw [if_neg hxy, if_pos hyx] at hab; exact absurd hab (by simp)
          · rw [if_neg hxy, if_neg hyx] at hab
            by_cases hyz : y.toNat < z.toNat
            · have hxz : x.toNat < z.toNat := by omega
              simp [hxz]
            · by_cases hzy : z.toNat < y.toNat
              · rw [if_neg hyz, if_pos hzy] at hbc; exact absurd hbc (by simp)
              · rw [if_neg hyz, if_neg hzy] at hbc
                rw [if_neg (by omega : ¬ x.toNat < z.toNat),
                  if_neg (by omega : ¬ z.toNat < x.toNat)]
                exact ih bs cs hab hbc

theorem char_eq_of_toNat_eq {a b : Char} (h : a.toNat = b.toNat) : a = b :=
  Char.ext (UInt32.ext h)

theorem charsLe_antisymm :
    ∀ a b : List Char, charsLe a b = true → charsLe b a = true → a = b := by
  intro a
  induction a with
  | nil =>
    intro b _ hba
    cases b with
    | nil => rfl
    | cons d bs => simp [charsLe] at hba
  | cons c as ih =>
    intro b hab hba
    cases b with
    | nil => simp [charsLe] at hab
    | cons d bs =>
      simp only [charsLe] at hab hba
      by_cases h₁ : c.toNat < d.toNat
      · rw [if_neg (by omega), if_pos h₁] at hba; exact absurd hba (by simp)
      · by_cases h₂ : d.toNat < c.toNat
        · rw [if_neg h₁, if_pos h₂] at hab; exact absurd hab (by simp)
        · rw [if_neg h₁, if_neg h₂] at hab
          rw [if_neg h₂, if_neg h₁] at hba
          have hcd : c = d := char_eq_of_toNat_eq (by omega)
          subst hcd
          rw [ih bs hab hba]

instance : IsTotal String strLe := ⟨fun a b => charsLe_total a.data b.data⟩

instance : IsTrans String strLe :=
  ⟨fun a b c => charsLe_trans a.data b.data c.data⟩

instance : IsAntisymm String strLe :=
  ⟨fun a b hab hba => String.ext (charsLe_antisymm a.data b.data hab hba)⟩

instance : IsTotal (String × FsNode) keyLe := ⟨fun a b => charsLe_total a.1.data b.1.data⟩

instance : IsTrans (String × FsNode) keyLe :=
  ⟨fun a b c => charsLe_trans a.1.data b.1.data c.1.data⟩

theorem charsLe_append_left (p : List Char) :
    ∀ a b : List Char, charsLe a b = true → charsLe (p ++ a) (p ++ b) = true := by
  induction p with
  | nil => intro a b h; simpa using h
  | cons c ps ih => intro a b h; simpa [charsLe] using ih a b h

/-! ### Branch equations for `parse_frontmatter` -/

theorem parse_frontmatter_of_no_dashes {text : String}
    (h : leadsWith ['-', '-', '-'] text.data = false) :
    parse_frontmatter text = ([], text) := by
  simp only [parse_frontmatter, h, Bool.false_eq_true, if_false]

theorem parse_frontmatter_of_no_close {text : String}
    (h : leadsWith ['-', '-', '-'] text.data = true)
    (h₂ : findCloseAux ((pySplitlines text).drop 1) 1 = none) :
    parse_frontmatter text = ([], text) := by
  simp only [parse_frontmatter, h, if_true, h₂]

theorem parse_frontmatter_of_close {text : String} {e : Nat}
    (h : leadsWith ['-', '-', '-'] text.data = true)
    (h₂ : findCloseAux ((pySplitlines text).drop 1) 1 = some e) :
    parse_frontmatter text =
      (mkFrontmatter (((pySplitlines text).drop 1).take (e - 1)),
        joinWithNL ((pySplitlines text).drop (e + 1))) := by
  simp only [parse_frontmatter, h, if_true, h₂]

theorem findCloseAux_eq_none_iff :
    ∀ (ls : List String) (i : Nat),
      findCloseAux ls i = none ↔ ∀ l ∈ ls, pyStrip l ≠ "---" := by
  intro ls
  induction ls with
  | nil => intro i; simp [findCloseAux]
  | cons l rest ih =>
    intro i
    by_cases h : pyStrip l = "---"
    · simp [findCloseAux, h]
    · simp [findCloseAux, h, ih (i + 1)]

theorem findCloseAux_ge :
    ∀ (ls : List String) (i e : Nat), findCloseAux ls i = some e → i ≤ e := by
  intro ls
  induction ls with
  | nil => intro i e h; simp [findCloseAux] at h
  | cons l rest ih =>
    intro i e h
    by_cases hl : pyStrip l = "---"
    · simp [findCloseAux, hl] at h; omega
    · simp [findCloseAux, hl] at h
      have := ih (i + 1) e h
      omega

theorem findIdx?_start_shift {α : Type} (p : α → Bool) :
    ∀ (l : List α) (i : Nat), l.findIdx? p i = (l.findIdx? p).map (· + i) := by
  intro l
  induction l with
  | nil => intro i; rfl
  | cons a l ih =>
    intro i
    rw [List.findIdx?_cons, List.findIdx?_cons]
    by_cases h : p a
    · simp [h]
    · simp only [h, Bool.false_eq_true, if_false]
      rw [ih (i + 1), ih (0 + 1), Option.map_map]
      congr 1
      funext x
      simp only [Function.comp_apply]
      omega

theorem findCloseAux_eq_findIdx? :
    ∀ (ls : List String) (i : Nat),
      findCloseAux ls i =
        (ls.findIdx? (fun l => pyStrip l == "---")).map (· + i) := by
  intro ls
  induction ls with
  | nil => intro i; rfl
  | cons l rest ih =>
    intro i
    rw [List.findIdx?_cons]
    by_cases h : pyStrip l = "---"
    · simp [findCloseAux, h]
    · simp only [findCloseAux, h, if_false, beq_iff_eq, Bool.false_eq_true]
      rw [ih (i + 1), findIdx?_start_shift _ _ (0 + 1), Option.map_map]
      congr 1
      funext x
      simp only [Function.comp_apply]
      omega

/-! ### Length bookkeeping: a successful parse strictly shrinks the text -/

theorem joinWithNL_cons₂ (l l₂ : String) (ls : List String) :
    joinWithNL (l :: l₂ :: ls) = l ++ "\n" ++ joinWithNL (l₂ :: ls) := rfl

theorem joinWithNL_length_le (ls : List String) (l : String) :
    (joinWithNL ls).data.length ≤ (joinWithNL (l :: ls)).data.length := by
  cases ls with
  | nil => exact Nat.zero_le _
  | cons l₂ ls =>
    rw [joinWithNL_cons₂, String.data_append, String.data_append,
      List.length_append, List.length_append]
    omega

theorem joinWithNL_cons_length_le (l : String) (ls : List String) :
    (joinWithNL (l :: ls)).data.length ≤ l.data.length + 1 + (joinWithNL ls).data.length := by
  cases ls with
  | nil => simp [joinWithNL]
  | cons l₂ ls =>
    rw [joinWithNL_cons₂, String.data_append, String.data_append,
      List.length_append, List.length_append]
    have h : ("\n" : String).data.length = 1 := rfl
    omega

theorem joinWithNL_cons_length_eq (l : String) (l₂ : String) (ls : List String) :
    (joinWithNL (l :: l₂ :: ls)).data.length =
      l.data.length + 1 + (joinWithNL (l₂ :: ls)).data.length := by
  rw [joinWithNL_cons₂, String.data_append, String.data_append,
    List.length_append, List.length_append]
  have h : ("\n" : String).data.length = 1 := rfl
  omega

theorem joinWithNL_drop_length_le :
    ∀ (k : Nat) (ls : List String),
      (joinWithNL (ls.drop k)).data.length ≤ (joinWithNL ls).data.length := by
  intro k
  induction k with
  | zero => intro ls; simp
  | succ k ih =>
    intro ls
    cases ls with
    | nil => simp
    | cons l ls =>
      calc (joinWithNL ((l :: ls).drop (k + 1))).data.length
          = (joinWithNL (ls.drop k)).data.length := rfl
        _ ≤ (joinWithNL ls).data.length := ih ls
        _ ≤ _ := joinWithNL_length_le ls l

theorem pySplitlines_def (s : String) :
    pySplitlines s = (splitlinesAux s.data []).map String.mk := rfl

theorem joinLen_splitlinesAux :
    ∀ (cs acc : List Char),
      (joinWithNL ((splitlinesAux cs acc).map String.mk)).data.length ≤
        acc.length + cs.length := by
  intro cs acc
  induction cs, acc using splitlinesAux.induct with
  | case1 acc hacc =>
    rw [splitlinesAux.eq_1, if_pos hacc]
    exact Nat.zero_le _
  | case2 acc hacc =>
    rw [splitlinesAux.eq_1, if_neg hacc]
    simp [joinWithNL]
  | case3 rest acc ih =>
    rw [splitlinesAux.eq_2]
    simp only [List.map_cons]
    have h₁ := joinWithNL_cons_length_le (String.mk acc.reverse)
      ((splitlinesAux rest []).map String.mk)
    have h₂ : (String.mk acc.reverse).data.length = acc.length := by simp
    simp only [List.length_nil, Nat.zero_add] at ih
    simp only [List.length_cons]
    omega
  | case4 c rest acc hne hbk ih =>
    rw [splitlinesAux.eq_3 _ _ _ hne, if_pos hbk]
    simp only [List.map_cons]
    have h₁ := joinWithNL_cons_length_le (String.mk acc.reverse)
      ((splitlinesAux rest []).map String.mk)
    have h₂ : (String.mk acc.reverse).data.length = acc.length := by simp
    simp only [List.length_nil, Nat.zero_add] at ih
    simp only [List.length_cons]
    omega
  | case5 c rest acc hne hbk ih =>
    rw [splitlinesAux.eq_3 _ _ _ hne, if_neg hbk]
    simp only [List.length_cons] at ih ⊢
    omega

theorem splitlinesAux_nonbreak_step {c : Char} (hbk : isLineBreakCh c = false)
    (hc : c ≠ '\r') (cs acc : List Char) :
    splitlinesAux (c :: cs) acc = splitlinesAux cs (c :: acc) := by
  rw [splitlinesAux.eq_3 _ _ _ (fun _ hcr _ => hc hcr), if_neg (by simp [hbk])]

theorem splitlinesAux_first_line :
    ∀ (cs acc : List Char), acc ≠ [] →
      ∃ l tl, splitlinesAux cs acc = l :: tl ∧ acc.length ≤ l.length := by
  intro cs acc
  induction cs, acc using splitlinesAux.induct with
  | case1 acc hacc =>
    intro hne
    exact absurd (List.isEmpty_iff.mp hacc) hne
  | case2 acc hacc =>
    intro hne
    exact ⟨acc.reverse, [], by rw [splitlinesAux.eq_1, if_neg hacc], by simp⟩
  | case3 rest acc ih =>
    intro hne
    exact ⟨acc.reverse, _, splitlinesAux.eq_2 _ _, by simp⟩
  | case4 c rest acc hne₀ hbk ih =>
    intro hne
    exact ⟨acc.reverse, _, by rw [splitlinesAux.eq_3 _ _ _ hne₀, if_pos hbk], by simp⟩
  | case5 c rest acc hne₀ hbk ih =>
    intro hne
    obtain ⟨l, tl, heq, hlen⟩ := ih (by simp)
    refine ⟨l, tl, ?_, ?_⟩
    · rw [splitlinesAux.eq_3 _ _ _ hne₀, if_neg hbk]; exact heq
    · simp only [List.length_cons] at hlen; omega

theorem leadsWith_cons_inv {p : Char} {ps : List Char} {l : List Char}
    (h : leadsWith (p :: ps) l = true) :
    ∃ tl, l = p :: tl ∧ leadsWith ps tl = true := by
  cases l with
  | nil => simp [leadsWith] at h
  | cons c cs =>
    simp only [leadsWith, Bool.and_eq_true, beq_iff_eq] at h
    exact ⟨cs, by rw [h.1], h.2⟩

theorem body_length_bound {text : String} {e : Nat}
    (h : leadsWith ['-', '-', '-'] text.data = true)
    (h₂ : findCloseAux ((pySplitlines text).drop 1) 1 = some e) :
    (joinWithNL ((pySplitlines text).drop (e + 1))).data.length + 4 ≤ text.data.length := by
  obtain ⟨t₁, ht₁, h⟩ := leadsWith_cons_inv h
  obtain ⟨t₂, ht₂, h⟩ := leadsWith_cons_inv h
  obtain ⟨t₃, ht₃, _⟩ := leadsWith_cons_inv h
  have hdata : text.data = '-' :: '-' :: '-' :: t₃ := by rw [ht₁, ht₂, ht₃]
  have hstep : splitlinesAux text.data [] = splitlinesAux t₃ ['-', '-', '-'] := by
    rw [hdata,
      splitlinesAux_nonbreak_step (by decide) (by decide),
      splitlinesAux_nonbreak_step (by decide) (by decide),
      splitlinesAux_nonbreak_step (by decide) (by decide)]
  obtain ⟨l₀, tl₀, hsplit, hl₀⟩ := splitlinesAux_first_line t₃ ['-', '-', '-'] (by simp)
  have hl3 : 3 ≤ l₀.length := by simpa using hl₀
  have hlines : pySplitlines text = String.mk l₀ :: tl₀.map String.mk := by
    rw [pySplitlines_def, hstep, hsplit, List.map_cons]
  have hdrop1 : (pySplitlines text).drop 1 = tl₀.map String.mk := by
    rw [hlines, List.drop_one, List.tail_cons]
  have htl₀ : tl₀ ≠ [] := by
    intro hnil
    rw [hdrop1, hnil] at h₂
    simp [findCloseAux] at h₂
  obtain ⟨t₁', tl₁, htlcons⟩ : ∃ a as, tl₀ = a :: as := by
    cases tl₀ with
    | nil => exact absurd rfl htl₀
    | cons a as => exact ⟨a, as, rfl⟩
  have hfull : (joinWithNL (pySplitlines text)).data.length =
      l₀.length + 1 + (joinWithNL (tl₀.map String.mk)).data.length := by
    rw [hlines, htlcons, List.map_cons, joinWithNL_cons_length_eq]
  have hbound : (joinWithNL (pySplitlines text)).data.length ≤ text.data.length := by
    have := joinLen_splitlinesAux text.data []
    rw [pySplitlines_def]
    simpa using this
  have hdropE : (pySplitlines text).drop (e + 1) = (tl₀.map String.mk).drop e := by
    rw [hlines, List.drop_succ_cons]
  have hbody : (joinWithNL ((pySplitlines text).drop (e + 1))).data.length ≤
      (joinWithNL (tl₀.map String.mk)).data.length := by
    rw [hdropE]
    exact joinWithNL_drop_length_le e _
  omega

/-! ### The frontmatter dict and last-assignment-wins lookup -/

theorem dictGet_map_ne (d : List (String × String)) (k v k' : String) (h : k' ≠ k) :
    dictGet (d.map (fun p => if p.1 = k then (p.1, v) else p)) k' = dictGet d k' := by
  induction d with
  | nil => rfl
  | cons p rest ih =>
    simp only [List.map_cons]
    by_cases hp : p.1 = k
    · have hne : p.1 ≠ k' := by rw [hp]; exact fun hh => h hh.symm
      rw [if_pos hp]
      simp only [dictGet, if_neg hne]
      exact ih
    · rw [if_neg hp]
      simp only [dictGet]
      by_cases hk : p.1 = k'
      · rw [if_pos hk, if_pos hk]
      · rw [if_neg hk, if_neg hk]
        exact ih

theorem dictGet_map_self (d : List (String × String)) (k v : String)
    (h : d.any (fun p => p.1 == k) = true) :
    dictGet (d.map (fun p => if p.1 = k then (p.1, v) else p)) k = some v := by
  induction d with
  | nil => simp at h
  | cons p rest ih =>
    simp only [List.map_cons]
    by_cases hp : p.1 = k
    · rw [if_pos hp]
      simp only [dictGet, if_pos hp]
    · rw [if_neg hp]
      simp only [dictGet, if_neg hp]
      simp only [List.any_cons, Bool.or_eq_true, beq_iff_eq, hp, false_or] at h
      exact ih h

theorem dictGet_append_single (d : List (String × String)) (k v k' : String)
    (h : d.any (fun p => p.1 == k) = false) :
    dictGet (d ++ [(k, v)]) k' = if k' = k then some v else dictGet d k' := by
  induction d with
  | nil =>
    simp only [List.nil_append, dictGet]
    by_cases he : k' = k
    · rw [if_pos he.symm, if_pos he]
    · rw [if_neg (fun hh => he hh.symm), if_neg he]
  | cons p rest ih =>
    simp only [List.any_cons, Bool.or_eq_false_iff, beq_eq_false_iff_ne, ne_eq] at h
    simp only [List.cons_append, dictGet]
    by_cases hk : p.1 = k'
    · have he : ¬ k' = k := fun hh => h.1 (by rw [hk, hh])
      rw [if_pos hk, if_neg he, if_pos hk]
    · rw [if_neg hk]
      simp only [List.append_eq]
      rw [ih h.2]
      by_cases he : k' = k
      · rw [if_pos he, if_pos he]
      · rw [if_neg he, if_neg he, if_neg hk]

theorem dictGet_insert (d : List (String × String)) (k v k' : String) :
    dictGet (dictInsert d k v) k' = if k' = k then some v else dictGet d k' := by
  unfold dictInsert
  by_cases hany : d.any (fun p => p.1 == k) = true
  · rw [if_pos hany]
    by_cases he : k' = k
    · subst he
      rw [if_pos rfl]
      exact dictGet_map_self d k' v hany
    · rw [if_neg he]
      exact dictGet_map_ne d k v k' he
  · rw [if_neg hany]
    have hfalse : d.any (fun p => p.1 == k) = false := by
      revert hany
      cases d.any (fun p => p.1 == k) <;> simp
    exact dictGet_append_single d k v k' hfalse

theorem lookup_append (k : String) (xs ys : List (String × String)) :
    List.lookup k (xs ++ ys) =
      match List.lookup k xs with
      | some v => some v
      | none => List.lookup k ys := by
  induction xs with
  | nil => rfl
  | cons p rest ih =>
    obtain ⟨pk, pv⟩ := p
    by_cases h : k = pk
    · simp [List.lookup, h]
    · have hb : (k == pk) = false := beq_eq_false_iff_ne.mpr h
      simp only [List.cons_append, List.lookup, hb, List.append_eq]
      rw [ih]

theorem dictGet_foldl (ls : List String) :
    ∀ (d : List (String × String)) (k : String),
      dictGet (ls.foldl fmStep d) k =
        match List.lookup k ((ls.filterMap lineKV).reverse) with
        | some v => some v
        | none => dictGet d k := by
  induction ls with
  | nil => intro d k; rfl
  | cons l ls ih =>
    intro d k
    simp only [List.foldl_cons, List.filterMap_cons]
    cases hkv : lineKV l with
    | none =>
      simp only [fmStep, hkv]
      exact ih d k
    | some kv =>
      obtain ⟨k₀, v₀⟩ := kv
      simp only [fmStep, hkv]
      rw [ih (dictInsert d k₀ v₀) k, List.reverse_cons, lookup_append]
      cases hlk : List.lookup k (ls.filterMap lineKV).reverse with
      | some v => rfl
      | none =>
        simp only [dictGet_insert]
        by_cases h : k = k₀
        · simp [List.lookup, h]
        · have hb : (k == k₀) = false := beq_eq_false_iff_ne.mpr h
          simp [List.lookup, h, hb]

theorem mkFrontmatter_lookup (ls : List String) (k : String) :
    dictGet (mkFrontmatter ls) k = List.lookup k ((ls.filterMap lineKV).reverse) := by
  have h := dictGet_foldl ls [] k
  unfold mkFrontmatter
  rw [h]
  cases List.lookup k ((ls.filterMap lineKV).reverse) <;> rfl

/-! ### Line content of the split: no break characters survive -/

theorem splitlinesAux_no_break :
    ∀ (cs acc : List Char), (∀ c ∈ acc, isLineBreakCh c = false) →
      ∀ l ∈ splitlinesAux cs acc, ∀ c ∈ l, isLineBreakCh c = false := by
  intro cs acc
  induction cs, acc using splitlinesAux.induct with
  | case1 acc hacc =>
    intro hacc' l hl
    rw [splitlinesAux.eq_1, if_pos hacc] at hl
    simp at hl
  | case2 acc hacc =>
    intro hacc' l hl c hc
    rw [splitlinesAux.eq_1, if_neg hacc] at hl
    simp only [List.mem_singleton] at hl
    subst hl
    exact hacc' c (by simpa using hc)
  | case3 rest acc ih =>
    intro hacc' l hl c hc
    rw [splitlinesAux.eq_2] at hl
    rcases List.mem_cons.mp hl with h | h
    · subst h; exact hacc' c (by simpa using hc)
    · exact ih (by simp) l h c hc
  | case4 c₀ rest acc hne hbk ih =>
    intro hacc' l hl c hc
    rw [splitlinesAux.eq_3 _ _ _ hne, if_pos hbk] at hl
    rcases List.mem_cons.mp hl with h | h
    · subst h; exact hacc' c (by simpa using hc)
    · exact ih (by simp) l h c hc
  | case5 c₀ rest acc hne hbk ih =>
    intro hacc' l hl c hc
    rw [splitlinesAux.eq_3 _ _ _ hne, if_neg hbk] at hl
    refine ih ?_ l hl c hc
    intro c' hc'
    rcases List.mem_cons.mp hc' with h | h
    · subst h
      revert hbk
      cases isLineBreakCh c' <;> simp
    · exact hacc' c' h

theorem joinWithNL_mem_break :
    ∀ (ls : List String) (c : Char),
      c ∈ (joinWithNL ls).data → c = '\n' ∨ ∃ l ∈ ls, c ∈ l.data := by
  intro ls
  induction ls with
  | nil => intro c hc; simp [joinWithNL] at hc
  | cons l ls ih =>
    intro c hc
    cases ls with
    | nil => exact Or.inr ⟨l, by simp, by simpa [joinWithNL] using hc⟩
    | cons l₂ ls₂ =>
      rw [joinWithNL_cons₂, String.data_append, String.data_append] at hc
      rcases List.mem_append.mp hc with h | h
      · rcases List.mem_append.mp h with h₁ | h₁
        · exact Or.inr ⟨l, by simp, h₁⟩
        · exact Or.inl (by simpa using h₁)
      · rcases ih c h with h₂ | ⟨l', hl', hc'⟩
        · exact Or.inl h₂
        · exact Or.inr ⟨l', List.mem_cons_of_mem l hl', hc'⟩

/-! ### Claim theorems for the frontmatter parser -/

/-- Modelled from the claim's words (not from the code): strip exactly one
surrounding double-quote layer, and only when a quote is present on both
ends.  Used only to exhibit where the code's `strip('"')` differs. -/
def specOneLayerQuoteStrip (s : String) : String :=
  if 2 ≤ s.data.length ∧ s.data.head? = some '"' ∧ s.data.getLast? = some '"' then
    String.mk (s.data.drop 1).dropLast
  else s

/-- C1, counterexample.  For the header line `k: "v` the trimmed value is
`"v`, which has a double quote on the left end only: the claim (one layer
stripped, and only if present on both ends) predicts the value `"v`, but the
code's `strip('"')` removes every leading and trailing quote independently
and stores `v`. -/
theorem claim_C1_counterexample :
    dictGet (parse_frontmatter "---\nk: \"v\n---\nx").1 "k" = some "v" ∧
    specOneLayerQuoteStrip (pyStrip " \"v") = "\"v" ∧
    dictGet (parse_frontmatter "---\nk: \"v\n---\nx").1 "k" ≠
      some (specOneLayerQuoteStrip (pyStrip " \"v")) := by
  refine ⟨by decide, by decide, by decide⟩

/-- C1 (amended): for every well-formed header block, looking a key up in
the resulting mapping returns the value of the last line between the
delimiters whose colon-split, whitespace-trimmed key equals it — where a
line's value is the text after its first colon, trimmed of whitespace and
then stripped of all surrounding double quotes (each end independently,
regardless of the other end) — and `none` when no colon line has that key;
lines without a colon contribute nothing (`lineKV` returns `none` on them
and `filterMap` drops them). -/
theorem claim_C1_header_mapping (text : String) (e : Nat)
    (h₁ : leadsWith ['-', '-', '-'] text.data = true)
    (h₂ : findCloseAux ((pySplitlines text).drop 1) 1 = some e)
    (k : String) :
    dictGet (parse_frontmatter text).1 k =
      List.lookup k (((((pySplitlines text).drop 1).take (e - 1)).filterMap lineKV).reverse) := by
  rw [parse_frontmatter_of_close h₁ h₂]
  exact mkFrontmatter_lookup _ k

/-- C1 witness: in a concrete header with two `a:` lines and a colon-less
line, lookup returns the value of the last `a:` line. -/
theorem claim_C1_witness :
    dictGet (parse_frontmatter "---\na: 1\nnocolon\na: 2\n---\nB").1 "a" = some "2" := by
  have h := claim_C1_header_mapping "---\na: 1\nnocolon\na: 2\n---\nB" 4
    (by decide) (by decide) "a"
  exact h.trans (by decide)

/-- C2, counterexample.  The text `---x\n---\nbody` has first line `---x`,
which is not the delimiter line `---`, so the claim predicts the empty
mapping together with the original text; but the code only tests the
three-character prefix `---`, finds the closing line, and returns the body
`body`. -/
theorem claim_C2_counterexample :
    (pySplitlines "---x\n---\nbody").head? = some "---x" ∧
    ("---x" : String) ≠ "---" ∧
    parse_frontmatter "---x\n---\nbody" ≠ ([], "---x\n---\nbody") := by
  refine ⟨by decide, by decide, by decide⟩

/-- C2 (amended): `parse_frontmatter` returns the empty mapping together
with the original text unchanged in exactly two cases: when the text does
not start with the three characters `---` (a prefix test, not a first-line
test), and when it does but no subsequent line equals `---` after trimming
surrounding whitespace; in both cases the body is the full original text,
including the unterminated opening line. -/
theorem claim_C2_empty_iff (text : String) :
    parse_frontmatter text = ([], text) ↔
      leadsWith ['-', '-', '-'] text.data = false ∨
        (leadsWith ['-', '-', '-'] text.data = true ∧
          ∀ l ∈ (pySplitlines text).drop 1, pyStrip l ≠ "---") := by
  constructor
  · intro hp
    by_cases hld : leadsWith ['-', '-', '-'] text.data = true
    · refine Or.inr ⟨hld, ?_⟩
      cases hfc : findCloseAux ((pySplitlines text).drop 1) 1 with
      | none => exact (findCloseAux_eq_none_iff _ 1).mp hfc
      | some e =>
        exfalso
        have hb := body_length_bound hld hfc
        rw [parse_frontmatter_of_close hld hfc] at hp
        have hsnd : joinWithNL ((pySplitlines text).drop (e + 1)) = text :=
          congrArg Prod.snd hp
        have hlen := congrArg (fun s => s.data.length) hsnd
        simp only at hlen
        omega
    · exact Or.inl (by revert hld; cases leadsWith ['-', '-', '-'] text.data <;> simp)
  · intro h
    rcases h with h | ⟨h₁, h₂⟩
    · exact parse_frontmatter_of_no_dashes h
    · exact parse_frontmatter_of_no_close h₁ ((findCloseAux_eq_none_iff _ 1).mpr h₂)

/-- C2 witness: a text opening with the delimiter but with no closing line
comes back unchanged, with an empty mapping. -/
theorem claim_C2_witness : parse_frontmatter "---\nk: v" = ([], "---\nk: v") :=
  (claim_C2_empty_iff "---\nk: v").mpr (Or.inr ⟨by decide, by decide⟩)

/-- C3: when the opening delimiter is present and the scan finds a closing
delimiter (at the first subsequent line that trims to `---`, i.e. offset
`j` inside `lines[1:]`), the mapping is built from the lines strictly
between the delimiters and the body is every line after the closing
delimiter rejoined with `\n`; and on the concrete document
`---\nname: "Foo"\n---\nBody text` the parse yields the mapping
`{name: Foo}` (quotes stripped) and the body exactly `Body text`. -/
theorem claim_C3_body_after_close :
    (∀ (text : String) (j : Nat),
      leadsWith ['-', '-', '-'] text.data = true →
      ((pySplitlines text).drop 1).findIdx? (fun l => pyStrip l == "---") = some j →
      parse_frontmatter text =
        (mkFrontmatter (((pySplitlines text).drop 1).take j),
          joinWithNL ((pySplitlines text).drop (j + 2)))) ∧
    parse_frontmatter "---\nname: \"Foo\"\n---\nBody text" =
      ([("name", "Foo")], "Body text") := by
  constructor
  · intro text j h₁ h₂
    have he : findCloseAux ((pySplitlines text).drop 1) 1 = some (j + 1) := by
      rw [findCloseAux_eq_findIdx?, h₂]
      rfl
    have h := parse_frontmatter_of_close h₁ he
    simpa using h
  · decide

/-- C3 witness: the general branch applied to a concrete document. -/
theorem claim_C3_witness :
    parse_frontmatter "---\na: b\n---\nX\nY" = ([("a", "b")], "X\nY") := by
  have h := claim_C3_body_after_close.1 "---\na: b\n---\nX\nY" 1 (by decide) (by decide)
  exact h.trans (by decide)

/-- C9: `parse_frontmatter` is a total function; every input falls into
exactly one of the three branches (no leading `---`; no closing line; a
closing line at some index) and in each branch it returns a concrete
(mapping, body) pair — no exception path exists, because no operation used
by the Python code (`startswith`, `splitlines`, `strip`, `split`, dict
assignment, `join`) can raise on `str` input. -/
theorem claim_C9_total (text : String) :
    (leadsWith ['-', '-', '-'] text.data = false ∧ parse_frontmatter text = ([], text)) ∨
    (leadsWith ['-', '-', '-'] text.data = true ∧
      findCloseAux ((pySplitlines text).drop 1) 1 = none ∧
      parse_frontmatter text = ([], text)) ∨
    (∃ e, leadsWith ['-', '-', '-'] text.data = true ∧
      findCloseAux ((pySplitlines text).drop 1) 1 = some e ∧
      parse_frontmatter text =
        (mkFrontmatter (((pySplitlines text).drop 1).take (e - 1)),
          joinWithNL ((pySplitlines text).drop (e + 1)))) := by
  by_cases h : leadsWith ['-', '-', '-'] text.data = true
  · cases hfc : findCloseAux ((pySplitlines text).drop 1) 1 with
    | none => exact Or.inr (Or.inl ⟨h, rfl, parse_frontmatter_of_no_close h hfc⟩)
    | some e => exact Or.inr (Or.inr ⟨e, h, rfl, parse_frontmatter_of_close h hfc⟩)
  · have hf : leadsWith ['-', '-', '-'] text.data = false := by
      revert h; cases leadsWith ['-', '-', '-'] text.data <;> simp
    exact Or.inl ⟨hf, parse_frontmatter_of_no_dashes hf⟩

/-- C10: in the success branch the body is rebuilt by splitting into lines
and rejoining with `\n`, so the only line-break character it can contain is
`\n` itself (every `\r`, form feed, etc. was consumed as a line boundary),
and a trailing newline of the input is dropped: `---\nk: v\n---\nBody\n`
parses to the body exactly `Body`. -/
theorem claim_C10_line_endings :
    (∀ (text : String) (e : Nat),
      leadsWith ['-', '-', '-'] text.data = true →
      findCloseAux ((pySplitlines text).drop 1) 1 = some e →
      ∀ c ∈ (parse_frontmatter text).2.data, isLineBreakCh c = true → c = '\n') ∧
    parse_frontmatter "---\nk: v\n---\nBody\n" = ([("k", "v")], "Body") := by
  constructor
  · intro text e h₁ h₂ c hc hbrk
    rw [parse_frontmatter_of_close h₁ h₂] at hc
    rcases joinWithNL_mem_break _ c hc with h | ⟨l, hl, hcl⟩
    · exact h
    · exfalso
      have hl' : l ∈ pySplitlines text := List.mem_of_mem_drop hl
      rw [pySplitlines_def] at hl'
      rcases List.mem_map.mp hl' with ⟨lc, hlc, rfl⟩
      have hnb := splitlinesAux_no_break text.data [] (by simp) lc hlc c (by simpa using hcl)
      rw [hnb] at hbrk
      exact absurd hbrk (by simp)
  · decide

/-- C10 witness: the general branch applied at a concrete document whose
body contains a `\n`. -/
theorem claim_C10_witness :
    ('\n' ∈ (parse_frontmatter "---\nk: v\n---\nA\nB").2.data) ∧ ('\n' : Char) = '\n' :=
  ⟨by decide,
    claim_C10_line_endings.1 "---\nk: v\n---\nA\nB" 2 (by decide) (by decide) '\n'
      (by decide) (by decide)⟩

/-! ### The title inferrer -/

/-- The record fields assembled for one skill directory with descriptor
text `c` and reference entries `refs`. -/
def mkSkillRecord (nm c : String) (refs : List RefEntry) : SkillRecord :=
  { name := match dictGet (parse_frontmatter c).1 "name" with | some v => v | none => nm,
    folder := nm,
    description :=
      pyStrip (match dictGet (parse_frontmatter c).1 "description" with | some v => v | none => ""),
    references := refs }

theorem processDir_no_skill {nm : String} {es : List (String × FsNode)}
    (h : lookupNode "SKILL.md" es = none) : processDir nm es = .ok none := by
  simp only [processDir, h]

theorem processDir_dir_skill {nm : String} {es : List (String × FsNode)}
    {ds : List (String × FsNode)} (h : lookupNode "SKILL.md" es = some (.dir ds)) :
    processDir nm es = .error "IsADirectoryError" := by
  simp only [processDir, h, readText, Bind.bind, Except.bind]

theorem processDir_file {nm : String} {es : List (String × FsNode)} {c : String}
    {refs : List RefEntry} (h : lookupNode "SKILL.md" es = some (.file c))
    (hr : refsOf es = .ok refs) :
    processDir nm es = .ok (some (mkSkillRecord nm c refs)) := by
  simp only [processDir, h, readText, hr, Bind.bind, Except.bind, Pure.pure, Except.pure,
    mkSkillRecord]

theorem processDir_file_err {nm : String} {es : List (String × FsNode)} {c msg : String}
    (h : lookupNode "SKILL.md" es = some (.file c)) (hr : refsOf es = .error msg) :
    processDir nm es = .error msg := by
  simp only [processDir, h, readText, hr, Bind.bind, Except.bind]

theorem buildIndexGo_reserved {nm : String} {es : List (String × FsNode)}
    {rest : List (String × FsNode)} (h : nm ∈ reservedNames) :
    buildIndexGo ((nm, .dir es) :: rest) = buildIndexGo rest := by
  simp only [buildIndexGo, h, if_pos]

theorem buildIndexGo_dir {nm : String} {es : List (String × FsNode)}
    {rest : List (String × FsNode)} (h : nm ∉ reservedNames) :
    buildIndexGo ((nm, .dir es) :: rest) =
      processDir nm es >>= fun r =>
        buildIndexGo rest >>= fun tail =>
          pure (match r with | none => tail | some r₀ => r₀ :: tail) := by
  simp only [buildIndexGo, h, if_neg, if_false]

/-- The class of entries for which `build_index` emits a record: a
directory, not reserved, whose `SKILL.md` child exists and is a regular
file. -/
def qualifiesB : String × FsNode → Bool
  | (nm, FsNode.dir es) =>
    (decide (nm ∉ reservedNames)) &&
      (match lookupNode "SKILL.md" es with
       | some (FsNode.file _) => true
       | _ => false)
  | (_, FsNode.file _) => false

theorem buildIndexGo_folders :
    ∀ (l : List (String × FsNode)) (recs : List SkillRecord),
      buildIndexGo l = .ok recs →
      recs.map (fun r => r.folder) =
        l.filterMap (fun p => if qualifiesB p then some p.1 else none) := by
  intro l
  induction l with
  | nil =>
    intro recs h
    injection h with h
    subst h
    rfl
  | cons p rest ih =>
    obtain ⟨nm, nd⟩ := p
    intro recs h
    cases nd with
    | file c =>
      have hq : qualifiesB (nm, FsNode.file c) = false := rfl
      simp only [List.filterMap_cons, hq, Bool.false_eq_true, if_false]
      exact ih recs h
    | dir es =>
      by_cases hres : nm ∈ reservedNames
      · rw [buildIndexGo_reserved hres] at h
        have hq : qualifiesB (nm, FsNode.dir es) = false := by
          simp [qualifiesB, hres]
        simp only [List.filterMap_cons, hq, Bool.false_eq_true, if_false]
        exact ih recs h
      · rw [buildIndexGo_dir hres] at h
        cases hpd : processDir nm es with
        | error msg => rw [hpd] at h; simp [Bind.bind, Except.bind] at h
        | ok r? =>
          rw [hpd] at h
          cases hgo : buildIndexGo rest with
          | error m =>
            rw [hgo] at h
            simp [Bind.bind, Except.bind] at h
          | ok tail =>
            rw [hgo] at h
            simp only [Bind.bind, Except.bind, Pure.pure, Except.pure] at h
            injection h with h
            cases hsk : lookupNode "SKILL.md" es with
            | none =>
              rw [processDir_no_skill hsk] at hpd
              injection hpd with hpd
              rw [← hpd] at h
              subst h
              have hq : qualifiesB (nm, FsNode.dir es) = false := by
                simp [qualifiesB, hsk]
              simp only [List.filterMap_cons, hq, Bool.false_eq_true, if_false]
              exact ih tail hgo
            | some sk =>
              cases sk with
              | dir ds =>
                rw [processDir_dir_skill hsk] at hpd
                exact absurd hpd (by simp)
              | file c =>
                cases hro : refsOf es with
                | error m =>
                  rw [processDir_file_err hsk hro] at hpd
                  exact absurd hpd (by simp)
                | ok refs =>
                  rw [processDir_file hsk hro] at hpd
                  injection hpd with hpd
                  rw [← hpd] at h
                  subst h
                  have hq : qualifiesB (nm, FsNode.dir es) = true := by
                    simp [qualifiesB, hres, hsk]
                  simp only [List.filterMap_cons, hq, if_true, List.map_cons]
                  rw [ih tail hgo]
                  rfl

theorem buildIndexGo_provenance :
    ∀ (l : List (String × FsNode)) (recs : List SkillRecord),
      buildIndexGo l = .ok recs →
      ∀ r ∈ recs, ∃ nm es c refs,
        (nm, FsNode.dir es) ∈ l ∧ nm ∉ reservedNames ∧
        lookupNode "SKILL.md" es = some (.file c) ∧
        refsOf es = .ok refs ∧
        r = mkSkillRecord nm c refs := by
  intro l
  induction l with
  | nil =>
    intro recs h r hr
    injection h with h
    subst h
    simp at hr
  | cons p rest ih =>
    obtain ⟨nm, nd⟩ := p
    intro recs h r hr
    cases nd with
    | file c =>
      obtain ⟨nm', es', c', refs', hm, h₂, h₃, h₄, h₅⟩ := ih recs h r hr
      exact ⟨nm', es', c', refs', List.mem_cons_of_mem _ hm, h₂, h₃, h₄, h₅⟩
    | dir es =>
      by_cases hres : nm ∈ reservedNames
      · rw [buildIndexGo_reserved hres] at h
        obtain ⟨nm', es', c', refs', hm, h₂, h₃, h₄, h₅⟩ := ih recs h r hr
        exact ⟨nm', es', c', refs', List.mem_cons_of_mem _ hm, h₂, h₃, h₄, h₅⟩
      · rw [buildIndexGo_dir hres] at h
        cases hpd : processDir nm es with
        | error msg => rw [hpd] at h; simp [Bind.bind, Except.bind] at h
        | ok r? =>
          rw [hpd] at h
          cases hgo : buildIndexGo rest with
          | error m => rw [hgo] at h; simp [Bind.bind, Except.bind] at h
          | ok tail =>
            rw [hgo] at h
            simp only [Bind.bind, Except.bind, Pure.pure, Except.pure] at h
            injection h with h
            cases hsk : lookupNode "SKILL.md" es with
            | none =>
              rw [processDir_no_skill hsk] at hpd
              injection hpd with hpd
              rw [← hpd] at h
              subst h
              obtain ⟨nm', es', c', refs', hm, h₂, h₃, h₄, h₅⟩ := ih tail hgo r hr
              exact ⟨nm', es', c', refs', List.mem_cons_of_mem _ hm, h₂, h₃, h₄, h₅⟩
            | some sk =>
              cases sk with
              | dir ds =>
                rw [processDir_dir_skill hsk] at hpd
                exact absurd hpd (by simp)
              | file c =>
                cases hro : refsOf es with
                | error m =>
                  rw [processDir_file_err hsk hro] at hpd
                  exact absurd hpd (by simp)
                | ok refs =>
                  rw [processDir_file hsk hro] at hpd
                  injection hpd with hpd
                  rw [← hpd] at h
                  subst h
                  rcases List.mem_cons.mp hr with hr | hr
                  · exact ⟨nm, es, c, refs, List.mem_cons_self _ _, hres, hsk, hro, hr⟩
                  · obtain ⟨nm', es', c', refs', hm, h₂, h₃, h₄, h₅⟩ := ih tail hgo r hr
                    exact ⟨nm', es', c', refs', List.mem_cons_of_mem _ hm, h₂, h₃, h₄, h₅⟩

theorem buildIndexGo_mem :
    ∀ (l : List (String × FsNode)) (recs : List SkillRecord) (nm : String)
      (es : List (String × FsNode)) (c : String),
      buildIndexGo l = .ok recs →
      (nm, FsNode.dir es) ∈ l → nm ∉ reservedNames →
      lookupNode "SKILL.md" es = some (.file c) →
      ∃ refs, refsOf es = .ok refs ∧ mkSkillRecord nm c refs ∈ recs := by
  intro l
  induction l with
  | nil => intro recs nm es c _ hm; simp at hm
  | cons p rest ih =>
    obtain ⟨nm₀, nd₀⟩ := p
    intro recs nm es c h hm hres hsk
    rcases List.mem_cons.mp hm with heq | hm'
    · injection heq with hm₁ hm₂
      subst hm₁
      cases hm₂
      rw [buildIndexGo_dir hres] at h
      cases hro : refsOf es with
      | error m =>
        rw [processDir_file_err hsk hro] at h
        simp [Bind.bind, Except.bind] at h
      | ok refs =>
        rw [processDir_file hsk hro] at h
        cases hgo : buildIndexGo rest with
        | error m => rw [hgo] at h; simp [Bind.bind, Except.bind] at h
        | ok tail =>
          rw [hgo] at h
          simp only [Bind.bind, Except.bind, Pure.pure, Except.pure] at h
          injection h with h
          subst h
          exact ⟨refs, rfl, List.mem_cons_self _ _⟩
    · cases nd₀ with
      | file c₀ => exact ih recs nm es c h hm' hres hsk
      | dir es₀ =>
        by_cases hres₀ : nm₀ ∈ reservedNames
        · rw [buildIndexGo_reserved hres₀] at h
          exact ih recs nm es c h hm' hres hsk
        · rw [buildIndexGo_dir hres₀] at h
          cases hpd : processDir nm₀ es₀ with
          | error msg => rw [hpd] at h; simp [Bind.bind, Except.bind] at h
          | ok r? =>
            rw [hpd] at h
            cases hgo : buildIndexGo rest with
            | error m => rw [hgo] at h; simp [Bind.bind, Except.bind] at h
            | ok tail =>
              rw [hgo] at h
              simp only [Bind.bind, Except.bind, Pure.pure, Except.pure] at h
              injection h with h
              obtain ⟨refs, hro, hmem⟩ := ih tail nm es c hgo hm' hres hsk
              refine ⟨refs, hro, ?_⟩
              subst h
              cases r? with
              | none => exact hmem
              | some r₀ => exact List.mem_cons_of_mem _ hmem

/-! ### Reference entries: file fields and sortedness -/

theorem mkRefEntry_ok_file {es : List (String × FsNode)} {g : String} {e : RefEntry}
    (h : mkRefEntry es g = .ok e) : e.file = "references/" ++ g := by
  unfold mkRefEntry at h
  cases ht : infer_title_from_markdown (lookupNode g es) g with
  | error m => rw [ht] at h; simp [Bind.bind, Except.bind] at h
  | ok t =>
    rw [ht] at h
    simp only [Bind.bind, Except.bind, Pure.pure, Except.pure] at h
    injection h with h
    rw [← h]

theorem mapM_mkRefEntry_files :
    ∀ (gl : List String) (es : List (String × FsNode)) (refs : List RefEntry),
      gl.mapM (mkRefEntry es) = .ok refs →
      refs.map (fun r => r.file) = gl.map (fun s => "references/" ++ s) := by
  intro gl
  induction gl with
  | nil =>
    intro es refs h
    simp only [List.mapM_nil, Pure.pure, Except.pure] at h
    injection h with h
    subst h
    rfl
  | cons g gl ih =>
    intro es refs h
    rw [List.mapM_cons] at h
    cases he : mkRefEntry es g with
    | error m => rw [he] at h; simp [Bind.bind, Except.bind] at h
    | ok e =>
      rw [he] at h
      cases hrest : gl.mapM (mkRefEntry es) with
      | error m => rw [hrest] at h; simp [Bind.bind, Except.bind] at h
      | ok es' =>
        rw [hrest] at h
        simp only [Bind.bind, Except.bind, Pure.pure, Except.pure] at h
        injection h with h
        subst h
        simp only [List.map_cons]
        rw [mkRefEntry_ok_file he, ih es es' hrest]

theorem strLe_append_left (p a b : String) (h : strLe a b) : strLe (p ++ a) (p ++ b) := by
  unfold strLe at h ⊢
  rw [String.data_append, String.data_append]
  exact charsLe_append_left p.data a.data b.data h

theorem refsOf_files (es : List (String × FsNode)) (refs : List RefEntry)
    (h : refsOf es = .ok refs) :
    ∃ names : List String, List.Pairwise strLe names ∧
      refs.map (fun r => r.file) = names.map (fun s => "references/" ++ s) := by
  unfold refsOf at h
  cases hl : lookupNode "references" es with
  | none =>
    rw [hl] at h
    injection h with h
    subst h
    exact ⟨[], by simp, rfl⟩
  | some rn =>
    rw [hl] at h
    cases rn with
    | file c =>
      simp only [buildRefEntries] at h
      injection h with h
      subst h
      exact ⟨[], by simp, rfl⟩
    | dir es₂ =>
      simp only [buildRefEntries] at h
      refine ⟨globMd (.dir es₂), ?_, mapM_mkRefEntry_files _ _ _ h⟩
      exact List.sorted_insertionSort strLe _

/-! ### Claim theorems for the index builder -/

/-- C4, counterexample.  When the header contains the line `name:` the key
`name` is present in the mapping with the empty value, and `dict.get`
returns that empty string rather than the default, so the record's `name`
is `""`, not the directory name `a` — the claim's "absent or not set"
disagrees with the code on present-but-empty. -/
theorem claim_C4_counterexample :
    dictGet (parse_frontmatter "---\nname:\n---\n").1 "name" = some "" ∧
    build_index [("a", FsNode.dir [("SKILL.md", FsNode.file "---\nname:\n---\n")])] =
      .ok [{ name := "", folder := "a", description := "", references := [] }] ∧
    ("" : String) ≠ "a" :=
  ⟨by decide, by rfl, by decide⟩

/-- C4 (amended): for every package directory whose descriptor is indexed,
the record's `name` equals the frontmatter `name` value when that key is
present — even when its value is empty — and defaults to the directory's
own name only when the key is absent; the record's `description` equals
the frontmatter `description` value trimmed of surrounding whitespace,
defaulting to the empty string when absent. -/
theorem claim_C4_name_description (root : List (String × FsNode))
    (recs : List SkillRecord) (nm : String) (es : List (String × FsNode)) (c : String)
    (h : build_index root = .ok recs)
    (hmem : (nm, FsNode.dir es) ∈ root)
    (hres : nm ∉ reservedNames)
    (hsk : lookupNode "SKILL.md" es = some (FsNode.file c)) :
    ∃ r ∈ recs, r.folder = nm ∧
      (dictGet (parse_frontmatter c).1 "name" = none → r.name = nm) ∧
      (∀ v, dictGet (parse_frontmatter c).1 "name" = some v → r.name = v) ∧
      r.description =
        pyStrip (match dictGet (parse_frontmatter c).1 "description" with
                 | some v => v
                 | none => "") := by
  unfold build_index at h
  have hmem' : (nm, FsNode.dir es) ∈ List.insertionSort keyLe root :=
    ((List.perm_insertionSort keyLe root).mem_iff).mpr hmem
  obtain ⟨refs, hro, hrecmem⟩ := buildIndexGo_mem _ _ _ _ _ h hmem' hres hsk
  refine ⟨mkSkillRecord nm c refs, hrecmem, rfl, ?_, ?_, rfl⟩
  · intro hn
    simp [mkSkillRecord, hn]
  · intro v hv
    simp [mkSkillRecord, hv]

/-- C4 witness: a concrete descriptor with `name: Alpha` and a padded
description produces the record name `Alpha`. -/
theorem claim_C4_witness :
    ({ name := "Alpha", folder := "a", description := "hi", references := [] } :
      SkillRecord).name = "Alpha" := by
  obtain ⟨r, hr, hfold, hnone, hsome, hdesc⟩ :=
    claim_C4_name_description
      [("a", FsNode.dir [("SKILL.md", FsNode.file "---\nname: Alpha\ndescription:  hi \n---\n")])]
      [{ name := "Alpha", folder := "a", description := "hi", references := [] }]
      "a" [("SKILL.md", FsNode.file "---\nname: Alpha\ndescription:  hi \n---\n")]
      "---\nname: Alpha\ndescription:  hi \n---\n"
      (by rfl) (by simp) (by decide) (by rfl)
  have hv := hsome "Alpha" (by decide)
  have hrr : r = { name := "Alpha", folder := "a", description := "hi", references := [] } := by
    simpa using hr
  rw [← hrr, hv]

/-- C5, counterexample.  A subdirectory whose `SKILL.md` entry is itself a
directory does not qualify (it contains no *file* named `SKILL.md`), yet it
does not produce "no record and no error": `exists()` is true, `read_text`
raises `IsADirectoryError`, and the whole run fails. -/
theorem claim_C5_counterexample :
    qualifiesB ("a", FsNode.dir [("SKILL.md", FsNode.dir [])]) = false ∧
    build_index [("a", FsNode.dir [("SKILL.md", FsNode.dir [])])] =
      .error "IsADirectoryError" :=
  ⟨by decide, by rfl⟩

/-- C5 (amended): when `build_index` succeeds, it emits exactly one record
per immediate subdirectory that is not reserved and whose `SKILL.md` entry
exists and is a regular file, in sorted order, with the record's `folder`
equal to the directory name; every other entry produces no record.  (A
`SKILL.md` entry that is itself a directory, or an unreadable reference
entry, instead makes the whole run fail with an error.) -/
theorem claim_C5_records_iff_qualify (root : List (String × FsNode))
    (recs : List SkillRecord) (h : build_index root = .ok recs) :
    recs.map (fun r => r.folder) =
      (List.insertionSort keyLe root).filterMap
        (fun p => if qualifiesB p then some p.1 else none) := by
  unfold build_index at h
  exact buildIndexGo_folders _ _ h

/-- C5 witness: a root with a qualifying `a` and `b`, a reserved `docs`, a
plain file `z` and a directory `c` without `SKILL.md` yields exactly the
folders `a`, `b`. -/
theorem claim_C5_witness :
    ([{ name := "A", folder := "a", description := "", references := [] },
      { name := "b", folder := "b", description := "", references := [] }] :
        List SkillRecord).map (fun r => r.folder) =
      (List.insertionSort keyLe
        [("b", FsNode.dir [("SKILL.md", FsNode.file "x")]),
         ("docs", FsNode.dir [("SKILL.md", FsNode.file "x")]),
         ("a", FsNode.dir [("SKILL.md", FsNode.file "---\nname: A\n---\n")]),
         ("z", FsNode.file "y"),
         ("c", FsNode.dir [])]).filterMap
        (fun p => if qualifiesB p then some p.1 else none) :=
  claim_C5_records_iff_qualify _ _ (by rfl)

/-- C6: whenever `build_index` returns a record list, the records are
sorted by folder name in code-point lexicographic order, and inside every
record the reference `file` fields are sorted the same way. -/
theorem claim_C6_sorted (root : List (String × FsNode)) (recs : List SkillRecord)
    (h : build_index root = .ok recs) :
    (recs.map (fun r => r.folder)).Pairwise strLe ∧
    ∀ r ∈ recs, (r.references.map (fun e => e.file)).Pairwise strLe := by
  constructor
  · have h' := h
    unfold build_index at h'
    rw [buildIndexGo_folders _ _ h']
    have hs : List.Pairwise keyLe (List.insertionSort keyLe root) :=
      List.sorted_insertionSort keyLe root
    refine List.Pairwise.filterMap _ ?_ hs
    intro a a' hr b hb b' hb'
    by_cases ha : qualifiesB a = true
    · rw [if_pos ha] at hb
      by_cases ha' : qualifiesB a' = true
      · rw [if_pos ha'] at hb'
        simp only [Option.mem_some_iff] at hb hb'
        subst hb
        subst hb'
        exact hr
      · rw [if_neg ha'] at hb'
        simp at hb'
    · rw [if_neg ha] at hb
      simp at hb
  · intro r hr
    have h' := h
    unfold build_index at h'
    obtain ⟨nm, es, c, refs, _, _, _, hro, hrec⟩ := buildIndexGo_provenance _ _ h' r hr
    obtain ⟨names, hnames, hmap⟩ := refsOf_files es refs hro
    have hrefs : r.references = refs := by rw [hrec]; rfl
    rw [hrefs, hmap]
    exact List.Pairwise.map _ (fun a b hab => strLe_append_left _ a b hab) hnames

/-- C6 witness: a concrete root whose records come out in folder order. -/
theorem claim_C6_witness :
    (([{ name := "a", folder := "a", description := "",
         references := [{ title := "One", file := "references/one.md" },
                        { title := "T2", file := "references/two.md" }] },
       { name := "Beta", folder := "b", description := "d", references := [] }] :
        List SkillRecord).map (fun r => r.folder)).Pairwise strLe :=
  (claim_C6_sorted
    [("b", FsNode.dir [("SKILL.md", FsNode.file "---\nname: Beta\ndescription:  d \n---\nbody")]),
     ("docs", FsNode.dir [("SKILL.md", FsNode.file "x")]),
     ("a", FsNode.dir [("SKILL.md", FsNode.file "no frontmatter"),
                       ("references", FsNode.dir [("two.md", FsNode.file "# T2"),
                                                  ("one.md", FsNode.file "hello")])])]
    _ (by rfl)).1

/-! ### Snapshot equivalence: inversion and lookup transport -/

theorem nodeEquiv_file_file {c₁ c₂ : String} :
    nodeEquiv (.file c₁) (.file c₂) = true ↔ c₁ = c₂ := by
  simp [nodeEquiv]

theorem nodeEquiv_file_dir {c : String} {e : List (String × FsNode)} :
    nodeEquiv (.file c) (.dir e) = false := rfl

theorem nodeEquiv_dir_file {e : List (String × FsNode)} {c : String} :
    nodeEquiv (.dir e) (.file c) = false := rfl

theorem nodeEquiv_dir_dir {e₁ e₂ : List (String × FsNode)} :
    nodeEquiv (.dir e₁) (.dir e₂) = true ↔
      e₁.length = e₂.length ∧ subEntriesEquiv e₁ e₂ = true := by
  simp [nodeEquiv]

theorem lookupNode_mem :
    ∀ {es : List (String × FsNode)} {k : String} {v : FsNode},
      lookupNode k es = some v → (k, v) ∈ es := by
  intro es
  induction es with
  | nil => intro k v h; simp [lookupNode] at h
  | cons p rest ih =>
    intro k v h
    simp only [lookupNode] at h
    by_cases hp : p.1 = k
    · rw [if_pos hp] at h
      injection h with h
      subst h
      subst hp
      exact List.mem_cons_self _ _
    · rw [if_neg hp] at h
      exact List.mem_cons_of_mem _ (ih h)

theorem lookupNode_eq_none_iff {k : String} :
    ∀ {es : List (String × FsNode)},
      lookupNode k es = none ↔ k ∉ es.map Prod.fst := by
  intro es
  induction es with
  | nil => simp [lookupNode]
  | cons p rest ih =>
    simp only [lookupNode, List.map_cons, List.mem_cons]
    by_cases hp : p.1 = k
    · simp [hp]
    · simp only [if_neg hp, ih]
      constructor
      · intro h hk
        rcases hk with hk | hk
        · exact hp hk.symm
        · exact h hk
      · intro h hk
        exact h (Or.inr hk)

theorem mem_lookupNode :
    ∀ {es : List (String × FsNode)} {k : String} {v : FsNode},
      (es.map Prod.fst).Nodup → (k, v) ∈ es → lookupNode k es = some v := by
  intro es
  induction es with
  | nil => intro k v _ hm; simp at hm
  | cons p rest ih =>
    intro k v hn hm
    simp only [List.map_cons, List.nodup_cons] at hn
    rcases List.mem_cons.mp hm with hm | hm
    · subst hm
      simp [lookupNode]
    · have hp : p.1 ≠ k := by
        intro hh
        exact hn.1 (hh ▸ List.mem_map.mpr ⟨(k, v), hm, rfl⟩)
      simp only [lookupNode, if_neg hp]
      exact ih hn.2 hm

theorem lookupNode_perm {es es' : List (String × FsNode)}
    (hn : (es.map Prod.fst).Nodup) (hp : es.Perm es') (k : String) :
    lookupNode k es = lookupNode k es' := by
  have hn' : (es'.map Prod.fst).Nodup := ((hp.map Prod.fst).nodup_iff).mp hn
  cases h : lookupNode k es with
  | some v =>
    exact (mem_lookupNode hn' (hp.subset (lookupNode_mem h))).symm
  | none =>
    rw [lookupNode_eq_none_iff] at h
    rw [eq_comm, lookupNode_eq_none_iff]
    intro hk
    exact h (((hp.map Prod.fst).mem_iff).mpr hk)

theorem subEntriesEquiv_iff :
    ∀ (e₁ e₂ : List (String × FsNode)),
      subEntriesEquiv e₁ e₂ = true ↔
        ∀ p ∈ e₁, ∃ v₂, lookupNode p.1 e₂ = some v₂ ∧ nodeEquiv p.2 v₂ = true := by
  intro e₁ e₂
  induction e₁ with
  | nil => simp [subEntriesEquiv]
  | cons p rest ih =>
    obtain ⟨k, v⟩ := p
    constructor
    · intro h q hq
      simp only [subEntriesEquiv, Bool.and_eq_true] at h
      rcases List.mem_cons.mp hq with hq | hq
      · subst hq
        cases hl : lookupNode k e₂ with
        | none => rw [hl] at h; exact absurd h.1 (by simp)
        | some v₂ =>
          rw [hl] at h
          exact ⟨v₂, rfl, h.1⟩
      · exact ih.mp h.2 q hq
    · intro h
      simp only [subEntriesEquiv, Bool.and_eq_true]
      obtain ⟨v₂, hl, he⟩ := h (k, v) (List.mem_cons_self _ _)
      refine ⟨?_, ih.mpr (fun q hq => h q (List.mem_cons_of_mem _ hq))⟩
      rw [hl]
      exact he

/-! ### Well-formed snapshots: distinct names in every directory -/

theorem wfEntries_cons_iff {k : String} {v : FsNode} {rest : List (String × FsNode)} :
    wfEntries ((k, v) :: rest) = true ↔
      (∀ p ∈ rest, p.1 ≠ k) ∧ wfNode v = true ∧ wfEntries rest = true := by
  simp [wfEntries, List.all_eq_true, Bool.and_eq_true, bne_iff_ne, and_assoc]

theorem wfEntries_nodupkeys :
    ∀ (es : List (String × FsNode)), wfEntries es = true → (es.map Prod.fst).Nodup := by
  intro es
  induction es with
  | nil => intro _; simp
  | cons p rest ih =>
    obtain ⟨k, v⟩ := p
    intro h
    obtain ⟨h₁, _, h₃⟩ := wfEntries_cons_iff.mp h
    simp only [List.map_cons, List.nodup_cons]
    refine ⟨?_, ih h₃⟩
    intro hk
    rcases List.mem_map.mp hk with ⟨q, hq, hq1⟩
    exact h₁ q hq hq1

theorem wfEntries_mem_wfNode :
    ∀ (es : List (String × FsNode)), wfEntries es = true →
      ∀ {k : String} {v : FsNode}, (k, v) ∈ es → wfNode v = true := by
  intro es
  induction es with
  | nil => intro _ k v hm; simp at hm
  | cons p rest ih =>
    obtain ⟨k₀, v₀⟩ := p
    intro h k v hm
    obtain ⟨_, h₂, h₃⟩ := wfEntries_cons_iff.mp h
    rcases List.mem_cons.mp hm with hm | hm
    · injection hm with hm₁ hm₂
      subst hm₂
      exact h₂
    · exact ih h₃ hm

/-! ### Congruence of the builder under snapshot equivalence -/

theorem equiv_keys_subset {e₁ e₂ : List (String × FsNode)}
    (hsub : subEntriesEquiv e₁ e₂ = true) :
    (e₁.map Prod.fst) ⊆ (e₂.map Prod.fst) := by
  intro k hk
  rcases List.mem_map.mp hk with ⟨p, hp, rfl⟩
  obtain ⟨v₂, hl, _⟩ := (subEntriesEquiv_iff _ _).mp hsub p hp
  exact List.mem_map.mpr ⟨(p.1, v₂), lookupNode_mem hl, rfl⟩

theorem equiv_keys_perm {e₁ e₂ : List (String × FsNode)}
    (hlen : e₁.length = e₂.length) (hsub : subEntriesEquiv e₁ e₂ = true)
    (hn₁ : (e₁.map Prod.fst).Nodup) :
    (e₁.map Prod.fst).Perm (e₂.map Prod.fst) :=
  (hn₁.subperm (equiv_keys_subset hsub)).perm_of_length_le (by simp [hlen])

theorem equivLookup_some {e₁ e₂ : List (String × FsNode)}
    (hsub : subEntriesEquiv e₁ e₂ = true) {k : String} {v₁ : FsNode}
    (h : lookupNode k e₁ = some v₁) :
    ∃ v₂, lookupNode k e₂ = some v₂ ∧ nodeEquiv v₁ v₂ = true :=
  (subEntriesEquiv_iff _ _).mp hsub (k, v₁) (lookupNode_mem h)

theorem equivLookup_none {e₁ e₂ : List (String × FsNode)}
    (hlen : e₁.length = e₂.length) (hsub : subEntriesEquiv e₁ e₂ = true)
    (hn₁ : (e₁.map Prod.fst).Nodup) {k : String}
    (h : lookupNode k e₁ = none) : lookupNode k e₂ = none := by
  rw [lookupNode_eq_none_iff] at h ⊢
  intro hk
  exact h (((equiv_keys_perm hlen hsub hn₁).mem_iff).mpr hk)

theorem globMd_congr {e₁ e₂ : List (String × FsNode)}
    (hlen : e₁.length = e₂.length) (hsub : subEntriesEquiv e₁ e₂ = true)
    (hn₁ : (e₁.map Prod.fst).Nodup) :
    globMd (.dir e₁) = globMd (.dir e₂) := by
  unfold globMd
  have hperm : ((e₁.map Prod.fst).filter endsWithMd).Perm
      ((e₂.map Prod.fst).filter endsWithMd) :=
    (equiv_keys_perm hlen hsub hn₁).filter _
  have h₁ := List.perm_insertionSort strLe ((e₁.map Prod.fst).filter endsWithMd)
  have h₂ := List.perm_insertionSort strLe ((e₂.map Prod.fst).filter endsWithMd)
  exact List.eq_of_perm_of_sorted (h₁.trans (hperm.trans h₂.symm))
    (List.sorted_insertionSort _ _) (List.sorted_insertionSort _ _)

theorem inferTitle_congr {n₁ n₂ : FsNode} (fname : String)
    (h : nodeEquiv n₁ n₂ = true) :
    infer_title_from_markdown (some n₁) fname = infer_title_from_markdown (some n₂) fname := by
  cases n₁ with
  | file c₁ =>
    cases n₂ with
    | file c₂ =>
      have hc : c₁ = c₂ := nodeEquiv_file_file.mp h
      rw [hc]
    | dir e₂ => rw [nodeEquiv_file_dir] at h; exact absurd h (by simp)
  | dir e₁ =>
    cases n₂ with
    | file c₂ => rw [nodeEquiv_dir_file] at h; exact absurd h (by simp)
    | dir e₂ => rfl

theorem mapM_except_congr {α β : Type} (f g : α → Except String β) :
    ∀ l : List α, (∀ x ∈ l, f x = g x) → l.mapM f = l.mapM g := by
  intro l
  induction l with
  | nil => intro _; rfl
  | cons a l ih =>
    intro h
    rw [List.mapM_cons, List.mapM_cons, h a (List.mem_cons_self _ _),
      ih (fun x hx => h x (List.mem_cons_of_mem _ hx))]

theorem mkRefEntry_congr {e₁ e₂ : List (String × FsNode)}
    (hlen : e₁.length = e₂.length) (hsub : subEntriesEquiv e₁ e₂ = true)
    (hn₁ : (e₁.map Prod.fst).Nodup) (g : String) :
    mkRefEntry e₁ g = mkRefEntry e₂ g := by
  unfold mkRefEntry
  cases hl : lookupNode g e₁ with
  | none => rw [equivLookup_none hlen hsub hn₁ hl]
  | some v₁ =>
    obtain ⟨v₂, hl₂, he⟩ := equivLookup_some hsub hl
    rw [hl₂, inferTitle_congr g he]

theorem buildRefEntries_congr {n₁ n₂ : FsNode}
    (he : nodeEquiv n₁ n₂ = true)
    (hw₁ : wfNode n₁ = true) :
    buildRefEntries n₁ = buildRefEntries n₂ := by
  cases n₁ with
  | file c₁ =>
    cases n₂ with
    | file c₂ => rfl
    | dir e₂ => rw [nodeEquiv_file_dir] at he; exact absurd he (by simp)
  | dir e₁ =>
    cases n₂ with
    | file c₂ => rw [nodeEquiv_dir_file] at he; exact absurd he (by simp)
    | dir e₂ =>
      obtain ⟨hlen, hsub⟩ := nodeEquiv_dir_dir.mp he
      have hn₁ : (e₁.map Prod.fst).Nodup := wfEntries_nodupkeys e₁ hw₁
      show (globMd (.dir e₁)).mapM (mkRefEntry e₁) = (globMd (.dir e₂)).mapM (mkRefEntry e₂)
      rw [globMd_congr hlen hsub hn₁]
      exact mapM_except_congr _ _ _ (fun g _ => mkRefEntry_congr hlen hsub hn₁ g)

theorem refsOf_congr {e₁ e₂ : List (String × FsNode)}
    (hlen : e₁.length = e₂.length) (hsub : subEntriesEquiv e₁ e₂ = true)
    (hw₁ : wfEntries e₁ = true) :
    refsOf e₁ = refsOf e₂ := by
  have hn₁ : (e₁.map Prod.fst).Nodup := wfEntries_nodupkeys e₁ hw₁
  unfold refsOf
  cases hl : lookupNode "references" e₁ with
  | none => rw [equivLookup_none hlen hsub hn₁ hl]
  | some rn₁ =>
    obtain ⟨rn₂, hl₂, he⟩ := equivLookup_some hsub hl
    rw [hl₂]
    exact buildRefEntries_congr he (wfEntries_mem_wfNode e₁ hw₁ (lookupNode_mem hl))

theorem processDir_congr {nm : String} {e₁ e₂ : List (String × FsNode)}
    (hlen : e₁.length = e₂.length) (hsub : subEntriesEquiv e₁ e₂ = true)
    (hw₁ : wfEntries e₁ = true) :
    processDir nm e₁ = processDir nm e₂ := by
  have hn₁ : (e₁.map Prod.fst).Nodup := wfEntries_nodupkeys e₁ hw₁
  unfold processDir
  cases hl : lookupNode "SKILL.md" e₁ with
  | none => rw [equivLookup_none hlen hsub hn₁ hl]
  | some sk₁ =>
    obtain ⟨sk₂, hl₂, he⟩ := equivLookup_some hsub hl
    rw [hl₂]
    cases sk₁ with
    | dir d₁ =>
      cases sk₂ with
      | file c₂ => rw [nodeEquiv_dir_file] at he; exact absurd he (by simp)
      | dir d₂ => simp [readText, Bind.bind, Except.bind]
    | file c₁ =>
      cases sk₂ with
      | dir d₂ => rw [nodeEquiv_file_dir] at he; exact absurd he (by simp)
      | file c₂ =>
        have hc : c₁ = c₂ := nodeEquiv_file_file.mp he
        subst hc
        rw [refsOf_congr hlen hsub hw₁]

/-- Pointwise relation between the two sorted entry lists: same name,
equivalent child. -/
def pairEquiv (p q : String × FsNode) : Prop :=
  p.1 = q.1 ∧ nodeEquiv p.2 q.2 = true

theorem sorted_align :
    ∀ (s₁ s₂ : List (String × FsNode)),
      s₁.length = s₂.length →
      (∀ p ∈ s₁, ∃ v₂, lookupNode p.1 s₂ = some v₂ ∧ nodeEquiv p.2 v₂ = true) →
      (s₁.map Prod.fst).Nodup → (s₂.map Prod.fst).Nodup →
      s₁.Pairwise keyLe → s₂.Pairwise keyLe →
      List.Forall₂ pairEquiv s₁ s₂ := by
  intro s₁
  induction s₁ with
  | nil =>
    intro s₂ hlen _ _ _ _ _
    cases s₂ with
    | nil => exact List.Forall₂.nil
    | cons b t₂ => simp at hlen
  | cons a t₁ ih =>
    intro s₂ hlen hP hn₁ hn₂ hs₁ hs₂
    cases s₂ with
    | nil => simp at hlen
    | cons b t₂ =>
      have hkeys : ((a :: t₁).map Prod.fst).Perm ((b :: t₂).map Prod.fst) := by
        have hsub : ((a :: t₁).map Prod.fst) ⊆ ((b :: t₂).map Prod.fst) := by
          intro k hk
          rcases List.mem_map.mp hk with ⟨p, hp, rfl⟩
          obtain ⟨v₂, hl, _⟩ := hP p hp
          exact List.mem_map.mpr ⟨(p.1, v₂), lookupNode_mem hl, rfl⟩
        exact (hn₁.subperm hsub).perm_of_length_le (by simp [List.length_cons] at hlen ⊢; omega)
      have hab : a.1 = b.1 := by
        by_contra hne
        have ha₂ : a.1 ∈ (b :: t₂).map Prod.fst := hkeys.subset (by simp)
        have hb₁ : b.1 ∈ (a :: t₁).map Prod.fst := hkeys.symm.subset (by simp)
        have ha₂' : a.1 ∈ t₂.map Prod.fst := by
          simp only [List.map_cons, List.mem_cons] at ha₂
          rcases ha₂ with h | h
          · exact absurd h hne
          · exact h
        have hb₁' : b.1 ∈ t₁.map Prod.fst := by
          simp only [List.map_cons, List.mem_cons] at hb₁
          rcases hb₁ with h | h
          · exact absurd h.symm hne
          · exact h
        rcases List.mem_map.mp hb₁' with ⟨q, hq, hq1⟩
        have h₁ : charsLe a.1.data q.1.data = true := (List.pairwise_cons.mp hs₁).1 q hq
        rcases List.mem_map.mp ha₂' with ⟨p, hp, hp1⟩
        have h₂ : charsLe b.1.data p.1.data = true := (List.pairwise_cons.mp hs₂).1 p hp
        rw [hq1] at h₁
        rw [hp1] at h₂
        exact hne (String.ext (charsLe_antisymm _ _ h₁ h₂))
      obtain ⟨v₂, hl, he⟩ := hP a (List.mem_cons_self _ _)
      have hlb : lookupNode a.1 (b :: t₂) = some b.2 := by
        simp only [lookupNode, if_pos hab.symm]
      have hv₂ : v₂ = b.2 := by
        have := hl.symm.trans hlb
        injection this
      refine List.Forall₂.cons ⟨hab, hv₂ ▸ he⟩ ?_
      apply ih t₂
      · simpa using hlen
      · intro p hp
        obtain ⟨w, hw, hew⟩ := hP p (List.mem_cons_of_mem _ hp)
        have hpa : p.1 ≠ a.1 := by
          intro hh
          have hmem : a.1 ∈ t₁.map Prod.fst := List.mem_map.mpr ⟨p, hp, hh⟩
          simp only [List.map_cons, List.nodup_cons] at hn₁
          exact hn₁.1 hmem
        have hstep : lookupNode p.1 (b :: t₂) = lookupNode p.1 t₂ := by
          have hbp : b.1 ≠ p.1 := by
            rw [← hab]
            exact fun hh => hpa hh.symm
          simp only [lookupNode, if_neg hbp]
        rw [hstep] at hw
        exact ⟨w, hw, hew⟩
      · simp only [List.map_cons, List.nodup_cons] at hn₁
        exact hn₁.2
      · simp only [List.map_cons, List.nodup_cons] at hn₂
        exact hn₂.2
      · exact (List.pairwise_cons.mp hs₁).2
      · exact (List.pairwise_cons.mp hs₂).2

theorem buildIndexGo_file {nm : String} {c : String} {rest : List (String × FsNode)} :
    buildIndexGo ((nm, .file c) :: rest) = buildIndexGo rest := rfl

theorem buildIndexGo_congr :
    ∀ (s₁ s₂ : List (String × FsNode)),
      List.Forall₂ pairEquiv s₁ s₂ →
      (∀ p ∈ s₁, wfNode p.2 = true) →
      buildIndexGo s₁ = buildIndexGo s₂ := by
  intro s₁
  induction s₁ with
  | nil =>
    intro s₂ hf _
    rw [List.forall₂_nil_left_iff.mp hf]
  | cons p t₁ ih =>
    intro s₂ hf hw₁
    cases s₂ with
    | nil => exact absurd hf (by simp)
    | cons q t₂ =>
      rcases List.forall₂_cons.mp hf with ⟨⟨hname, hequiv⟩, htail⟩
      obtain ⟨nm₁, n₁⟩ := p
      obtain ⟨nm₂, n₂⟩ := q
      replace hname : nm₁ = nm₂ := hname
      subst hname
      have hwtail : ∀ p ∈ t₁, wfNode p.2 = true :=
        fun p hp => hw₁ p (List.mem_cons_of_mem _ hp)
      cases n₁ with
      | file c₁ =>
        cases n₂ with
        | file c₂ =>
          rw [buildIndexGo_file, buildIndexGo_file]
          exact ih t₂ htail hwtail
        | dir e₂ =>
          rw [nodeEquiv_file_dir] at hequiv
          exact absurd hequiv (by simp)
      | dir e₁ =>
        cases n₂ with
        | file c₂ =>
          rw [nodeEquiv_dir_file] at hequiv
          exact absurd hequiv (by simp)
        | dir e₂ =>
          obtain ⟨hlen, hsub⟩ := nodeEquiv_dir_dir.mp hequiv
          have hwe₁ : wfEntries e₁ = true := hw₁ (nm₁, .dir e₁) (List.mem_cons_self _ _)
          by_cases hres : nm₁ ∈ reservedNames
          · rw [buildIndexGo_reserved hres, buildIndexGo_reserved hres]
            exact ih t₂ htail hwtail
          · rw [buildIndexGo_dir hres, buildIndexGo_dir hres,
              processDir_congr hlen hsub hwe₁, ih t₂ htail hwtail]

/-- C8: `build_index` is deterministic across runs.  The only run-to-run
nondeterminism in the Python code is the order in which `scandir` lists
each directory (normalised by `sorted(...)`), so two runs over the same
file-system snapshot are modelled as two `FsNode` trees that are equal up
to reordering of every directory's entry list (`nodeEquiv`); for
well-formed snapshots (distinct names in each directory, as on a real file
system) the resulting record lists are equal — hence any serialisation of
them is byte-identical. -/
theorem claim_C8_deterministic (r₁ r₂ : List (String × FsNode))
    (hw₁ : wfEntries r₁ = true) (hw₂ : wfEntries r₂ = true)
    (he : nodeEquiv (.dir r₁) (.dir r₂) = true) :
    build_index r₁ = build_index r₂ := by
  obtain ⟨hlen, hsub⟩ := nodeEquiv_dir_dir.mp he
  have hn₁ : (r₁.map Prod.fst).Nodup := wfEntries_nodupkeys r₁ hw₁
  have hn₂ : (r₂.map Prod.fst).Nodup := wfEntries_nodupkeys r₂ hw₂
  have hp₁ := List.perm_insertionSort keyLe r₁
  have hp₂ := List.perm_insertionSort keyLe r₂
  unfold build_index
  apply buildIndexGo_congr
  · apply sorted_align
    · rw [hp₁.length_eq, hp₂.length_eq]
      exact hlen
    · intro p hp
      have hp' : p ∈ r₁ := hp₁.subset hp
      obtain ⟨v₂, hl, he'⟩ := (subEntriesEquiv_iff _ _).mp hsub p hp'
      refine ⟨v₂, ?_, he'⟩
      rw [← lookupNode_perm hn₂ hp₂.symm p.1]
      exact hl
    · exact ((hp₁.map Prod.fst).nodup_iff).mpr hn₁
    · exact ((hp₂.map Prod.fst).nodup_iff).mpr hn₂
    · exact List.sorted_insertionSort keyLe r₁
    · exact List.sorted_insertionSort keyLe r₂
  · intro p hp
    obtain ⟨k, v⟩ := p
    exact wfEntries_mem_wfNode r₁ hw₁ (hp₁.subset hp)

/-- C8 witness: two listings of the same snapshot — the root entries and a
`references` directory permuted — produce the same index. -/
theorem claim_C8_witness :
    build_index
      [("a", FsNode.dir [("SKILL.md", FsNode.file "---\nname: A\n---\n"),
                         ("references", FsNode.dir [("b.md", FsNode.file "x"),
                                                    ("a.md", FsNode.file "# Y")])]),
       ("z", FsNode.dir [("SKILL.md", FsNode.file "w")])] =
    build_index
      [("z", FsNode.dir [("SKILL.md", FsNode.file "w")]),
       ("a", FsNode.dir [("references", FsNode.dir [("a.md", FsNode.file "# Y"),
                                                    ("b.md", FsNode.file "x")]),
                         ("SKILL.md", FsNode.file "---\nname: A\n---\n")])] :=
  claim_C8_deterministic _ _ (by decide) (by decide) (by decide)
